import Mathlib

/- Shallow embedding of the DoReFa-Net quantization functions defined in
   examples/DoReFa-Net/svhn-digit-dorefa.py.

   Tensor values are modelled as lists of rationals.  For the gradient
   quantizer, whose reduction keeps axis 0 (the batch axis) and reduces all
   other axes, a rank-r tensor is modelled as a list of per-sample lists
   (the non-batch axes flattened); the keep_dims broadcast of the per-sample
   maximum then becomes a per-sample scalar.

   tf.tanh is a transcendental primitive; the weight quantizer is
   parametrized by an arbitrary function standing for it, since no claim
   depends on tanh values. -/

/-- tf.round: rounds to the nearest integer, ties to even. -/
def tfRound (x : ℚ) : ℤ :=
  if x - ⌊x⌋ < 1/2 then ⌊x⌋
  else if 1/2 < x - ⌊x⌋ then ⌊x⌋ + 1
  else if ⌊x⌋ % 2 = 0 then ⌊x⌋ else ⌊x⌋ + 1

/-- The level count n = 2^k - 1 computed in quantize. -/
def nQ (k : ℕ) : ℚ := 2 ^ k - 1

/-- quantize(x, k) = tf.round(x * n) / n with n = 2^k - 1 (scalar form;
the Floor-gradient override does not affect the forward value). -/
def quantize (x : ℚ) (k : ℕ) : ℚ := (tfRound (x * nQ k) : ℚ) / nQ k

/-- quantize applied elementwise to a tensor. -/
def quantizeT (xs : List ℚ) (k : ℕ) : List ℚ := xs.map (fun v => quantize v k)

/-- tf.sign: -1 for negative, 0 for zero, 1 for positive. -/
def sgn (x : ℚ) : ℚ := if x < 0 then -1 else if x = 0 then 0 else 1

/-- tf.reduce_mean(tf.abs(x)) over a whole tensor. -/
def meanAbs (xs : List ℚ) : ℚ := (xs.map (fun v => |v|)).sum / (xs.length : ℚ)

/-- tf.reduce_max over a whole tensor (nonempty in all intended uses). -/
def reduceMax : List ℚ → ℚ
  | [] => 0
  | x :: t => t.foldl max x

/-- fw, the weight quantizer: identity for bitW = 32; sign(x/E)*E with
E = mean(|x|) for bitW = 1 (stop_gradient and the Sign override do not
affect the forward value); otherwise tanh-normalize and quantize. -/
def fw (tanh : ℚ → ℚ) (bitW : ℕ) (xs : List ℚ) : List ℚ :=
  if bitW = 32 then xs
  else if bitW = 1 then
    xs.map (fun v => sgn (v / meanAbs xs) * meanAbs xs)
  else
    let ys := xs.map tanh
    let M := reduceMax (ys.map (fun v => |v|))
    ys.map (fun y => 2 * quantize (y / M * (1/2) + 1/2) bitW - 1)

/-- fa, the activation quantizer. -/
def fa (bitA : ℕ) (xs : List ℚ) : List ℚ :=
  if bitA = 32 then xs else quantizeT xs bitA

/-- fg, forward value only: identity for bitG = 32, and tf.identity(x)
(under the FGGrad gradient override) otherwise. -/
def fg (bitG : ℕ) (xs : List ℚ) : List ℚ :=
  if bitG = 32 then xs else xs

/-- tf.clip_by_value. -/
def clipByValue (x lo hi : ℚ) : ℚ := min (max x lo) hi

/-- maxx of grad_fg: tf.reduce_max(tf.abs(x), list(range(1, rank)),
keep_dims=True), i.e. the per-sample maximum absolute value. -/
def sampleMax (s : List ℚ) : ℚ := reduceMax (s.map (fun v => |v|))

/-- The body of grad_fg on one sample s with its dither noise values us
(one tf.random_uniform draw per element). -/
def gradFgSample (bitG : ℕ) (s us : List ℚ) : List ℚ :=
  (s.zip us).map (fun q =>
    (quantize (clipByValue (q.1 / sampleMax s * (1/2) + 1/2 + q.2) 0 1) bitG
      - 1/2) * sampleMax s * 2)

/-- grad_fg, the registered FGGrad backward rule, on a whole gradient
tensor x with dither noise tensor u. -/
def grad_fg (bitG : ℕ) (x u : List (List ℚ)) : List (List ℚ) :=
  (x.zip u).map (fun p => gradFgSample bitG p.1 p.2)

/-- The backward-rule output as the spec phrases it, for comparison with
grad_fg: quantize(clip(x / maxx * 0.5 + 0.5 + u, 0, 1), bitG) - 0.5,
multiplied by maxx * 2, where maxx is max(|x|) reduced over all axes
except axis 0. -/
def gradFgSpec (bitG : ℕ) (x u : List (List ℚ)) : List (List ℚ) :=
  (x.zip u).map (fun p =>
    (p.1.zip p.2).map (fun q =>
      (quantize (clipByValue (q.1 / sampleMax p.1 * (1/2) + 1/2 + q.2) 0 1) bitG
        - 1/2) * (sampleMax p.1 * 2)))

/-- grad_fg with the rank assertion made explicit: the rule reads
x.get_shape().ndims and asserts it is not None before computing. -/
def gradFgChecked (bitG : ℕ) (rank : Option ℕ) (x u : List (List ℚ)) :
    Option (List (List ℚ)) :=
  match rank with
  | none => none
  | some _ => some (grad_fg bitG x u)

/-- State of the module-global GRAD_DEFINED flag together with the number
of times the FGGrad backward rule has been registered. -/
structure RegState where
  defined : Bool
  count : ℕ
  deriving DecidableEq

/-- The registration effect of one get_dorefa call: register FGGrad when
GRAD_DEFINED is false, then set GRAD_DEFINED to True unconditionally. -/
def getDorefaReg (s : RegState) : RegState :=
  ⟨true, if s.defined then s.count else s.count + 1⟩

/-- Process start: GRAD_DEFINED = False, no registration yet. -/
def initRegState : RegState := ⟨false, 0⟩

/-! Helper lemmas about the embedded operations. -/

theorem tfRound_low (x : ℚ) (m : ℤ) (h1 : ⌊x⌋ = m) (h2 : x - m < 1/2) :
    tfRound x = m := by
  unfold tfRound
  rw [h1, if_pos h2]

theorem tfRound_high (x : ℚ) (m : ℤ) (h1 : ⌊x⌋ = m) (h2 : 1/2 < x - m) :
    tfRound x = m + 1 := by
  unfold tfRound
  rw [h1, if_neg (by linarith), if_pos h2]

theorem tfRound_intCast (m : ℤ) : tfRound (m : ℚ) = m := by
  refine tfRound_low _ m (Int.floor_intCast m) ?_
  norm_num

theorem tfRound_nonneg (x : ℚ) (h : 0 ≤ x) : 0 ≤ tfRound x := by
  have hf : 0 ≤ ⌊x⌋ := Int.floor_nonneg.mpr h
  unfold tfRound
  split_ifs <;> omega

theorem tfRound_le (x : ℚ) (N : ℤ) (h : x ≤ N) : tfRound x ≤ N := by
  have hfl : ⌊x⌋ ≤ N := by
    have hm := Int.floor_mono h
    rwa [Int.floor_intCast] at hm
  have hflle : (⌊x⌋ : ℚ) ≤ x := Int.floor_le x
  unfold tfRound
  split_ifs with h1 h2 h3
  · exact hfl
  · have hlt : (⌊x⌋ : ℚ) < (N : ℚ) := by linarith [not_lt.mp h1]
    have : ⌊x⌋ < N := by exact_mod_cast hlt
    omega
  · exact hfl
  · have hlt : (⌊x⌋ : ℚ) < (N : ℚ) := by linarith [not_lt.mp h1]
    have : ⌊x⌋ < N := by exact_mod_cast hlt
    omega

theorem one_le_nQ (k : ℕ) (hk : 1 ≤ k) : 1 ≤ nQ k := by
  unfold nQ
  have h : (2 : ℚ) ^ 1 ≤ 2 ^ k := pow_le_pow_right₀ one_le_two hk
  norm_num at h
  linarith

theorem nQ_pos (k : ℕ) (hk : 1 ≤ k) : 0 < nQ k :=
  lt_of_lt_of_le one_pos (one_le_nQ k hk)

theorem nQ_eq_intCast (k : ℕ) : nQ k = (((2 : ℤ) ^ k - 1 : ℤ) : ℚ) := by
  unfold nQ
  push_cast
  ring

theorem quantize_bounds (x : ℚ) (k : ℕ) (hk : 1 ≤ k) (h0 : 0 ≤ x) (h1 : x ≤ 1) :
    0 ≤ quantize x k ∧ quantize x k ≤ 1 := by
  have hn := nQ_pos k hk
  have hr0 : 0 ≤ tfRound (x * nQ k) :=
    tfRound_nonneg _ (mul_nonneg h0 hn.le)
  have hrn : tfRound (x * nQ k) ≤ (2 : ℤ) ^ k - 1 := by
    refine tfRound_le _ _ ?_
    rw [← nQ_eq_intCast]
    calc x * nQ k ≤ 1 * nQ k := mul_le_mul_of_nonneg_right h1 hn.le
    _ = nQ k := one_mul _
  constructor
  · exact div_nonneg (by exact_mod_cast hr0) hn.le
  · rw [quantize, div_le_one hn]
    have hcast : ((tfRound (x * nQ k) : ℤ) : ℚ) ≤ (((2 : ℤ) ^ k - 1 : ℤ) : ℚ) := by
      exact_mod_cast hrn
    exact le_trans hcast (le_of_eq (nQ_eq_intCast k).symm)

theorem quantize_idem_aux (x : ℚ) (k : ℕ) (hk : 1 ≤ k) :
    quantize (quantize x k) k = quantize x k := by
  have hn := (nQ_pos k hk).ne.symm
  unfold quantize
  rw [div_mul_cancel₀ _ hn, tfRound_intCast]

theorem meanAbs_pos (xs : List ℚ) (h : ∃ v ∈ xs, v ≠ 0) : 0 < meanAbs xs := by
  obtain ⟨v, hv, hv0⟩ := h
  have hlen : 0 < xs.length := List.length_pos.mpr (List.ne_nil_of_mem hv)
  have hsum : |v| ≤ (xs.map (fun w => |w|)).sum := by
    refine List.single_le_sum ?_ _ (List.mem_map_of_mem _ hv)
    intro y hy
    obtain ⟨w, _, rfl⟩ := List.mem_map.mp hy
    exact abs_nonneg w
  have hpos : 0 < (xs.map (fun w => |w|)).sum :=
    lt_of_lt_of_le (abs_pos.mpr hv0) hsum
  exact div_pos hpos (by exact_mod_cast hlen)

theorem sgn_div_pos (v E : ℚ) (hE : 0 < E) : sgn (v / E) = sgn v := by
  rcases lt_trichotomy v 0 with h | h | h
  · rw [sgn, sgn, if_pos h, if_pos (div_neg_of_neg_of_pos h hE)]
  · subst h
    simp [sgn]
  · have h2 : 0 < v / E := div_pos h hE
    rw [sgn, sgn, if_neg (by linarith), if_neg (by linarith), if_neg (by linarith),
      if_neg (by linarith)]

theorem abs_sgn_of_ne (v : ℚ) (hv : v ≠ 0) : |sgn v| = 1 := by
  rcases lt_trichotomy v 0 with h | h | h
  · rw [sgn, if_pos h]
    norm_num
  · exact absurd h hv
  · rw [sgn, if_neg (by linarith), if_neg (by linarith)]
    norm_num

theorem clipByValue_bounds (x lo hi : ℚ) (h : lo ≤ hi) :
    lo ≤ clipByValue x lo hi ∧ clipByValue x lo hi ≤ hi := by
  unfold clipByValue
  exact ⟨le_min (le_max_right x lo) h, min_le_right _ _⟩

theorem le_foldl_max (b : ℚ) (l : List ℚ) : b ≤ l.foldl max b := by
  induction l generalizing b with
  | nil => exact le_refl b
  | cons a t ih => exact le_trans (le_max_left b a) (ih (max b a))

theorem sampleMax_nonneg (s : List ℚ) : 0 ≤ sampleMax s := by
  cases s with
  | nil => exact le_refl 0
  | cons v t =>
    have h : sampleMax (v :: t) = (t.map (fun w => |w|)).foldl max |v| := rfl
    rw [h]
    exact le_trans (abs_nonneg v) (le_foldl_max _ _)

/-! Claim theorems. -/

/-- Claim C1: for every tensor x and every bit-width k ≥ 1, quantize(x, k)
returns round(x · n) / n elementwise with n = 2^k - 1; in particular
quantize([0.0, 0.3, 0.6, 1.0], k = 2) with n = 3 returns [0, 1/3, 2/3, 1]. -/
theorem quantize_formula_example (xs : List ℚ) (k : ℕ) (hk : 1 ≤ k) :
    quantizeT xs k = xs.map (fun v => (tfRound (v * nQ k) : ℚ) / nQ k) ∧
    quantizeT [0, 3/10, 3/5, 1] 2 = [0, 1/3, 2/3, 1] := by
  constructor
  · rfl
  · have e1 : quantize 0 2 = 0 / nQ 2 := by
      rw [quantize, tfRound_low _ 0 (by norm_num [nQ]) (by norm_num [nQ])]
      norm_num
    have e2 : quantize (3/10) 2 = 1 / nQ 2 := by
      rw [quantize, tfRound_high _ 0 (by norm_num [nQ]) (by norm_num [nQ])]
      norm_num
    have e3 : quantize (3/5) 2 = 2 / nQ 2 := by
      rw [quantize, tfRound_high _ 1 (by norm_num [nQ]) (by norm_num [nQ])]
      norm_num
    have e4 : quantize 1 2 = 3 / nQ 2 := by
      rw [quantize, tfRound_low _ 3 (by norm_num [nQ]) (by norm_num [nQ])]
      norm_num
    rw [quantizeT]
    simp only [List.map]
    rw [e1, e2, e3, e4]
    norm_num [nQ]

/-- Witness for C1 at xs = [], k = 2: the hypothesis 1 ≤ 2 holds and the
concrete example of the claim evaluates as stated. -/
theorem quantize_formula_example_witness :
    1 ≤ 2 ∧ quantizeT [0, 3/10, 3/5, 1] 2 = [0, 1/3, 2/3, 1] :=
  ⟨by decide, (quantize_formula_example [] 2 (by decide)).2⟩

/-- Claim C4 (as stated): for k ≥ 1 and x in [0,1], quantize(x, k) is one of
the 2^k equally spaced values m/n for 0 ≤ m ≤ n = 2^k - 1, that value set
has exactly 2^k elements, and quantize is idempotent at x. -/
theorem quantize_levels_idempotent (k : ℕ) (x : ℚ) (hk : 1 ≤ k)
    (h0 : 0 ≤ x) (h1 : x ≤ 1) :
    (∃ m : ℕ, m < 2 ^ k ∧ quantize x k = (m : ℚ) / nQ k) ∧
    (Finset.image (fun m : ℕ => (m : ℚ) / nQ k) (Finset.range (2 ^ k))).card = 2 ^ k ∧
    quantize (quantize x k) k = quantize x k := by
  have hn := nQ_pos k hk
  refine ⟨?_, ?_, quantize_idem_aux x k hk⟩
  · have hr0 : 0 ≤ tfRound (x * nQ k) := tfRound_nonneg _ (mul_nonneg h0 hn.le)
    have hrn : tfRound (x * nQ k) ≤ (2 : ℤ) ^ k - 1 := by
      refine tfRound_le _ _ ?_
      rw [← nQ_eq_intCast]
      calc x * nQ k ≤ 1 * nQ k := mul_le_mul_of_nonneg_right h1 hn.le
      _ = nQ k := one_mul _
    refine ⟨(tfRound (x * nQ k)).toNat, ?_, ?_⟩
    · have hcast : ((2 : ℤ) ^ k : ℤ) = ((2 ^ k : ℕ) : ℤ) := by push_cast; ring
      rw [hcast] at hrn
      omega
    · have htn : (((tfRound (x * nQ k)).toNat : ℕ) : ℚ) =
          ((tfRound (x * nQ k) : ℤ) : ℚ) := by
        exact_mod_cast Int.toNat_of_nonneg hr0
      rw [quantize, ← htn]
  · have hinj : Function.Injective (fun m : ℕ => (m : ℚ) / nQ k) := by
      intro a b hab
      simp only at hab
      field_simp [hn.ne'] at hab
      exact_mod_cast hab
    rw [Finset.card_image_of_injective _ hinj, Finset.card_range]

/-- Witness for C4 at k = 1, x = 1/2. -/
theorem quantize_levels_idempotent_witness :
    (1 ≤ 1 ∧ (0 : ℚ) ≤ 1/2 ∧ (1/2 : ℚ) ≤ 1) ∧
    ((∃ m : ℕ, m < 2 ^ 1 ∧ quantize (1/2) 1 = (m : ℚ) / nQ 1) ∧
      (Finset.image (fun m : ℕ => (m : ℚ) / nQ 1) (Finset.range (2 ^ 1))).card = 2 ^ 1 ∧
      quantize (quantize (1/2) 1) 1 = quantize (1/2) 1) :=
  ⟨⟨by decide, by norm_num, by norm_num⟩,
    quantize_levels_idempotent 1 (1/2) (by decide) (by norm_num) (by norm_num)⟩

/-- Claim C5: when the respective bit-width equals 32, each of fw, fa, fg
is an exact identity on every input tensor. -/
theorem bitwidth32_identity (tanh : ℚ → ℚ) (xs : List ℚ) :
    fw tanh 32 xs = xs ∧ fa 32 xs = xs ∧ fg 32 xs = xs := by
  refine ⟨?_, ?_, ?_⟩ <;> simp [fw, fa, fg]

/-- Claim C6: for bitG ≠ 32, the forward value of fg(x) equals x exactly. -/
theorem fg_forward_identity (bitG : ℕ) (xs : List ℚ) (h : bitG ≠ 32) :
    fg bitG xs = xs := by
  simp [fg]

/-- Witness for C6 at bitG = 4. -/
theorem fg_forward_identity_witness :
    (4 : ℕ) ≠ 32 ∧ fg 4 [1, 2] = [1, 2] :=
  ⟨by decide, fg_forward_identity 4 [1, 2] (by decide)⟩

/-- Claim C7: for bitW not 1 or 32, fw(x) = 2 · quantize(x'', bitW) − 1
elementwise, with x' = tanh(x) and x'' = x' / max(|x'|) · 0.5 + 0.5, the max
taken over all elements of |x'|. -/
theorem fw_general_branch (tanh : ℚ → ℚ) (bitW : ℕ) (xs : List ℚ)
    (h32 : bitW ≠ 32) (h1 : bitW ≠ 1) :
    fw tanh bitW xs =
      (xs.map tanh).map (fun y =>
        2 * quantize (y / reduceMax ((xs.map tanh).map (fun v => |v|)) * (1/2) + 1/2) bitW
          - 1) := by
  simp [fw, h32, h1]

/-- Witness for C7 at bitW = 2, xs = [0], tanh modelled by the identity. -/
theorem fw_general_branch_witness :
    ((2 : ℕ) ≠ 32 ∧ (2 : ℕ) ≠ 1) ∧
    fw (fun v => v) 2 [0] =
      (([0] : List ℚ).map (fun v => v)).map (fun y =>
        2 * quantize
          (y / reduceMax ((([0] : List ℚ).map (fun v => v)).map (fun v => |v|)) * (1/2) + 1/2) 2
          - 1) :=
  ⟨⟨by decide, by decide⟩, fw_general_branch (fun v => v) 2 [0] (by decide) (by decide)⟩

/-- Counterexample to claim C2 as stated: on x = [-2, -1, 0, 1, 2] the code
maps the element at x = 0 to sign(0/E) * E = 0 * (6/5) = 0, so not every
element of fw(x) has magnitude E = 6/5. -/
theorem fw_bin_magnitude_counterexample :
    fw (fun v => v) 1 [-2, -1, 0, 1, 2] = [-(6/5), -(6/5), 0, 6/5, 6/5] ∧
    meanAbs [-2, -1, 0, 1, 2] = 6/5 ∧
    ¬ ∀ y ∈ fw (fun v => v) 1 [-2, -1, 0, 1, 2], |y| = meanAbs [-2, -1, 0, 1, 2] := by
  have e : fw (fun v => v) 1 [-2, -1, 0, 1, 2] = [-(6/5), -(6/5), 0, 6/5, 6/5] := by
    norm_num [fw, meanAbs, sgn]
  have em : meanAbs [-2, -1, 0, 1, 2] = 6/5 := by norm_num [meanAbs]
  refine ⟨e, em, ?_⟩
  intro hall
  have h0 := hall 0 (by rw [e]; simp)
  rw [em] at h0
  norm_num at h0

/-- Claim C2 (amended): for bitW = 1 and any input tensor with some nonzero
element, fw maps each element v to sign(v) * E with E = mean(|x|) > 0; every
nonzero element's image has magnitude exactly E, while elements equal to 0
map to 0 (tf.sign(0) = 0); on x = [-2, -1, 0, 1, 2] with E = 1.2 the output
is [-1.2, -1.2, 0, 1.2, 1.2]. -/
theorem fw_bin_amended (tanh : ℚ → ℚ) (xs : List ℚ) (h : ∃ v ∈ xs, v ≠ 0) :
    fw tanh 1 xs = xs.map (fun v => sgn v * meanAbs xs) ∧
    (∀ v ∈ xs, v ≠ 0 → |sgn v * meanAbs xs| = meanAbs xs) ∧
    fw tanh 1 [-2, -1, 0, 1, 2] = [-(6/5), -(6/5), 0, 6/5, 6/5] := by
  have hE := meanAbs_pos xs h
  refine ⟨?_, ?_, ?_⟩
  · have hfun : (fun v => sgn (v / meanAbs xs) * meanAbs xs)
        = fun v => sgn v * meanAbs xs := by
      funext v
      rw [sgn_div_pos v _ hE]
    have hbranch : fw tanh 1 xs = xs.map (fun v => sgn (v / meanAbs xs) * meanAbs xs) := by
      norm_num [fw]
    rw [hbranch, hfun]
  · intro v hv hv0
    rw [abs_mul, abs_sgn_of_ne v hv0, one_mul, abs_of_pos hE]
  · norm_num [fw, meanAbs, sgn]

/-- Witness for C2's amended claim at x = [-2, -1, 0, 1, 2]. -/
theorem fw_bin_amended_witness :
    (∃ v ∈ ([-2, -1, 0, 1, 2] : List ℚ), v ≠ 0) ∧
    (fw (fun v => v) 1 [-2, -1, 0, 1, 2]
        = ([-2, -1, 0, 1, 2] : List ℚ).map (fun v => sgn v * meanAbs [-2, -1, 0, 1, 2]) ∧
      (∀ v ∈ ([-2, -1, 0, 1, 2] : List ℚ), v ≠ 0 →
        |sgn v * meanAbs [-2, -1, 0, 1, 2]| = meanAbs [-2, -1, 0, 1, 2]) ∧
      fw (fun v => v) 1 [-2, -1, 0, 1, 2] = [-(6/5), -(6/5), 0, 6/5, 6/5]) :=
  ⟨⟨2, by norm_num, by norm_num⟩,
    fw_bin_amended (fun v => v) [-2, -1, 0, 1, 2] ⟨2, by norm_num, by norm_num⟩⟩

/-- Claim C3: for bitG ≠ 32 and dither noise drawn in [-0.5/n, 0.5/n], the
registered backward rule returns quantize(clip(x/maxx·0.5+0.5+u, 0, 1),
bitG) - 0.5, multiplied by maxx·2, with maxx the per-sample maximum of |x|
over the non-batch axes. -/
theorem grad_fg_formula (bitG : ℕ) (x u : List (List ℚ)) (hbit : bitG ≠ 32)
    (hu : ∀ s ∈ u, ∀ w ∈ s, -(1/2) / nQ bitG ≤ w ∧ w ≤ (1/2) / nQ bitG) :
    grad_fg bitG x u = gradFgSpec bitG x u := by
  simp [grad_fg, gradFgSample, gradFgSpec, mul_assoc]

/-- Witness for C3 at bitG = 4, x = [[1]], u = [[0]]. -/
theorem grad_fg_formula_witness :
    ((4 : ℕ) ≠ 32 ∧ ∀ s ∈ ([[0]] : List (List ℚ)), ∀ w ∈ s,
        -(1/2) / nQ 4 ≤ w ∧ w ≤ (1/2) / nQ 4) ∧
    grad_fg 4 [[1]] [[0]] = gradFgSpec 4 [[1]] [[0]] := by
  have hu : ∀ s ∈ ([[0]] : List (List ℚ)), ∀ w ∈ s,
      -(1/2) / nQ 4 ≤ w ∧ w ≤ (1/2) / nQ 4 := by
    intro s hs w hw
    rw [List.mem_singleton] at hs
    subst hs
    rw [List.mem_singleton] at hw
    subst hw
    norm_num [nQ]
  exact ⟨⟨by decide, hu⟩, grad_fg_formula 4 [[1]] [[0]] (by decide) hu⟩

/-- Claim C8: calling get_dorefa N times (N ≥ 1) in one process performs
exactly one registration of the FGGrad backward rule and leaves the
GRAD_DEFINED flag set. -/
theorem registration_idempotent (N : ℕ) (hN : 1 ≤ N) :
    (getDorefaReg^[N] initRegState).count = 1 ∧
    (getDorefaReg^[N] initRegState).defined = true := by
  obtain ⟨M, rfl⟩ : ∃ M, N = M + 1 := ⟨N - 1, by omega⟩
  rw [Function.iterate_succ_apply]
  have h1 : getDorefaReg initRegState = ⟨true, 1⟩ := rfl
  rw [h1, Function.iterate_fixed (show getDorefaReg ⟨true, 1⟩ = ⟨true, 1⟩ from rfl) M]
  exact ⟨rfl, rfl⟩

/-- Witness for C8 at N = 3. -/
theorem registration_idempotent_witness :
    1 ≤ 3 ∧ ((getDorefaReg^[3] initRegState).count = 1 ∧
      (getDorefaReg^[3] initRegState).defined = true) :=
  ⟨by decide, registration_idempotent 3 (by decide)⟩

/-- Claim C9: the backward rule fails exactly when the rank of the incoming
gradient tensor is statically unknown (None); with a known rank it always
produces a value. -/
theorem grad_fg_rank_assertion (bitG : ℕ) (rank : Option ℕ) (x u : List (List ℚ)) :
    (gradFgChecked bitG rank x u = none ↔ rank = none) ∧
    ∀ r : ℕ, ∃ y, gradFgChecked bitG (some r) x u = some y := by
  constructor
  · cases rank <;> simp [gradFgChecked]
  · intro r
    exact ⟨grad_fg bitG x u, rfl⟩

/-- Claim C10: each output sample of the backward rule is the per-sample
transform of a zipped input/noise pair, and every output element has
magnitude at most that sample's maxx. -/
theorem grad_fg_bounded (bitG : ℕ) (x u : List (List ℚ)) (hbit : 1 ≤ bitG)
    (hbit32 : bitG ≠ 32) :
    ∀ out ∈ grad_fg bitG x u, ∃ p ∈ x.zip u,
      out = gradFgSample bitG p.1 p.2 ∧
      ∀ y ∈ out, |y| ≤ sampleMax p.1 := by
  intro out hout
  rw [grad_fg, List.mem_map] at hout
  obtain ⟨p, hp, rfl⟩ := hout
  refine ⟨p, hp, rfl, ?_⟩
  intro y hy
  rw [gradFgSample, List.mem_map] at hy
  obtain ⟨q, hq, rfl⟩ := hy
  have hM : 0 ≤ sampleMax p.1 := sampleMax_nonneg p.1
  obtain ⟨hc0, hc1⟩ :=
    clipByValue_bounds (q.1 / sampleMax p.1 * (1/2) + 1/2 + q.2) 0 1 (by norm_num)
  obtain ⟨hq0, hq1⟩ := quantize_bounds _ bitG hbit hc0 hc1
  generalize hQ : quantize
    (clipByValue (q.1 / sampleMax p.1 * (1/2) + 1/2 + q.2) 0 1) bitG = Q at hq0 hq1 ⊢
  rw [abs_mul, abs_mul, abs_of_nonneg hM, show |(2 : ℚ)| = 2 from by norm_num]
  have habs : |Q - 1/2| ≤ 1/2 := by
    rw [abs_le]
    constructor <;> linarith
  nlinarith [mul_nonneg hM (by linarith : (0 : ℚ) ≤ 1 - 2 * |Q - 1/2|)]

/-- Witness for C10 at bitG = 4, x = [[1, -2], [0, 0]], u = [[0, 0], [0, 0]];
the second sample is all-zero, exercising the maxx = 0 case. -/
theorem grad_fg_bounded_witness :
    (1 ≤ 4 ∧ (4 : ℕ) ≠ 32) ∧
    ∀ out ∈ grad_fg 4 [[1, -2], [0, 0]] [[0, 0], [0, 0]],
      ∃ p ∈ ([[1, -2], [0, 0]] : List (List ℚ)).zip
          ([[0, 0], [0, 0]] : List (List ℚ)),
        out = gradFgSample 4 p.1 p.2 ∧
        ∀ y ∈ out, |y| ≤ sampleMax p.1 :=
  ⟨⟨by decide, by decide⟩,
    grad_fg_bounded 4 [[1, -2], [0, 0]] [[0, 0], [0, 0]] (by decide) (by decide)⟩
